import Mathlib

/-!
Verification of the WordStream streamgraph front end.

The repository invokes an external layout engine, referenced as
d3.layout.wordStream, and consumes its output in the drawing code
(src/unnamed/part_002), the sentiment trajectory panel
(src/unnamed/part_005) and the zoom animation module
(src/javascripts/zoom-animation.js).  The consumer-side functions below
are shallow embeddings of that JavaScript; the engine itself is not part
of the supplied sources, so its pieces are modelled from the written
specification and are marked as such in their doc comments.

Conventions of the embedding: JavaScript numbers that carry geometry are
modelled as rationals, frequencies as naturals, JavaScript objects used
as string-keyed dictionaries as association lists in insertion order,
and a possibly missing value (undefined) as an Option.
-/

namespace WordStream

/-- Word record of the data model: identity fields from the input plus
the placement attributes the engine attaches. -/
structure Word where
  text : String
  frequency : Nat
  sudden : Rat
  sentiment : Rat
  placed : Bool
  x : Rat
  y : Rat
  rotate : Rat
  fontSize : Rat
  timeStep : Nat
  topic : String
  id : String
deriving DecidableEq, Inhabited

/-- Period record: a date label and the mapping from category name to
word list, kept as an association list in insertion order. -/
structure Period where
  date : String
  words : List (String × List Word)
deriving DecidableEq, Inhabited

/-- Point of a layer polyline: x position, baseline offset y0 and band
thickness y. -/
structure LPoint where
  x : Rat
  y0 : Rat
  y : Rat
deriving DecidableEq, Inhabited

/-! ## Caller-side embeddings (translated from the sources) -/

/-- Visibility attribute assigned on the enter selection of drawWords
(src/unnamed/part_002 lines 1433-1435). -/
def enterVisibility (w : Word) : String :=
  if w.placed then "visible" else "hidden"

/-- Visibility attribute assigned on the update transition of drawWords
(src/unnamed/part_002 lines 1449-1451). -/
def updateVisibility (w : Word) : String :=
  if w.placed then "visible" else "hidden"

/-- Domain pair the caller hands to the logarithmic opacity scale
(src/unnamed/part_002 lines 1320-1322): minSud and maxSud are passed
through unchanged, with no clamping in the caller. -/
def opacityDomain (minSud maxSud : Rat) : Rat × Rat :=
  (minSud, maxSud)

/-- Boundary array built by draw (src/unnamed/part_002 lines 1242-1253):
every point of the first layer copied with y replaced by y0, followed by
the points of the last layer in reverse order with y replaced by y + y0. -/
def boundaryOf (layers : List (List LPoint)) : List LPoint :=
  ((layers.headD []).map (fun p => { p with y := p.y0 }))
    ++ ((layers.getLastD []).reverse.map (fun p => { p with y := p.y + p.y0 }))

/-- Combined path string built by draw (src/unnamed/part_002 lines
1259-1263), with the cardinal line generator kept abstract: the first
half of the boundary array rendered, then an L command, then the second
half rendered with its leading move command character removed, then Z. -/
def combinedPath (line : List LPoint → String) (boundary : List LPoint) : String :=
  let lenb := boundary.length
  line (boundary.take (lenb / 2))
    ++ "L"
    ++ (line (boundary.drop (lenb / 2))).drop 1
    ++ "Z"

/-- Points array built by the click handler of drawWords
(src/unnamed/part_002 lines 1557-1565): one point per stream layer
point, with y0 moved to the top edge and y zeroed. -/
def pointsOf (streamLayer : List LPoint) : List LPoint :=
  streamLayer.map (fun elm => { x := elm.x, y0 := elm.y0 + elm.y, y := 0 })

/-- Lookup of the point for a bound word in the click handler
(src/unnamed/part_002 lines 1566-1572): index timeStep + 1 into the
points array, the shift accounting for the duplicated first point. -/
def clickPointAt (points : List LPoint) (timeStep : Nat) : Option LPoint :=
  points.get? (timeStep + 1)

/-- Per-instance step of calculateWordAverageY
(src/javascripts/zoom-animation.js lines 318-332): guard the index
timeStep + 1 against the stream layer length, then return the band
center y0 + y / 2 at that index. -/
def wordCenterYAt (streamLayer : List LPoint) (timeStep : Nat) : Option Rat :=
  if timeStep + 1 < streamLayer.length then
    (streamLayer.get? (timeStep + 1)).map (fun p => p.y0 + p.y / 2)
  else none

/-- Collection of all words built by draw (src/unnamed/part_002 lines
1311-1316): for each period row and each topic, the topic entry of the
row is concatenated; a missing entry makes JavaScript concat append the
single value undefined, modelled as one none element. -/
def allWordsOfBoxes (data : List Period) (topics : List String) : List (Option Word) :=
  data.flatMap (fun row =>
    topics.flatMap (fun t =>
      match List.lookup t row.words with
      | some ws => ws.map some
      | none => [none]))

/-- Reordering of the words mapping of one period applied by draw before
invoking the engine (src/unnamed/part_002 lines 1141-1158): first every
category of the global order whose entry is present is appended, then
every remaining entry of the original mapping, skipping keys already
taken.  Array values are always truthy in JavaScript, so the two
truthiness guards of the source are presence tests here. -/
def reorderWords (categoryOrder : List String) (m : List (String × List Word)) :
    List (String × List Word) :=
  let first := categoryOrder.foldl (fun acc c =>
    match List.lookup c m with
    | some ws => if (List.lookup c acc).isSome then acc else acc ++ [(c, ws)]
    | none => acc) []
  m.foldl (fun acc kv => if (List.lookup kv.1 acc).isSome then acc else acc ++ [kv]) first

/-- Trajectory entry pushed by openForWord (src/unnamed/part_005 lines
91-98). -/
structure TrajEntry where
  period : String
  sentiment : Rat
  frequency : Nat
  count : Nat
deriving DecidableEq, Inhabited

/-- Accumulator of the per-period loop of openForWord
(src/unnamed/part_005 lines 72-89). -/
structure TrajAcc where
  sentimentSum : Rat
  frequency : Nat
  count : Nat
deriving DecidableEq, Inhabited

/-- Per-category step of the openForWord loop (src/unnamed/part_005
lines 79-88): the first word of the category with the requested text
contributes its sentiment to the sum, overwrites the frequency and bumps
the count. -/
def trajWordStep (wordText : String) (acc : TrajAcc) (kv : String × List Word) : TrajAcc :=
  match kv.2.find? (fun w => w.text == wordText) with
  | some found =>
      { sentimentSum := acc.sentimentSum + found.sentiment,
        frequency := found.frequency,
        count := acc.count + 1 }
  | none => acc

/-- Per-period step of openForWord (src/unnamed/part_005 lines 72-99):
all categories are folded, and an entry is produced exactly when the
count is positive. -/
def trajStep (wordText : String) (p : Period) : Option TrajEntry :=
  let acc := p.words.foldl (trajWordStep wordText) ⟨0, 0, 0⟩
  if acc.count > 0 then
    some { period := p.date,
           sentiment := acc.sentimentSum / (acc.count : Rat),
           frequency := acc.frequency,
           count := acc.count }
  else none

/-- Trajectory data built by openForWord (src/unnamed/part_005 lines
66-111): one entry per period that yields a positive count. -/
def openForWordTrajectory (wordText : String) (data : List Period) : List TrajEntry :=
  data.filterMap (trajStep wordText)

/-! ## Engine model

The implementation of d3.layout.wordStream is not among the supplied
sources; the definitions of this section are modelled from the
specification text (sections 4.1 to 4.4) and say so in their doc
comments. -/

/-- Modelled from the spec: flattening of the dataset used by the
Normalizer single pass over all periods, categories and words. -/
def allWordsOf (data : List Period) : List Word :=
  data.flatMap (fun p => p.words.flatMap (fun kv => kv.2))

/-- Modelled from the spec: the small positive epsilon used to clamp
nonpositive suddenness values. -/
def sudEps : Rat := 1 / 1000000

/-- Modelled from the spec: epsilon clamping of a suddenness value, any
value at most zero becomes the epsilon. -/
def clampSud (s : Rat) : Rat :=
  if s ≤ 0 then sudEps else s

/-- Modelled from the spec: maxFreq of the Normalizer, the maximum word
frequency over the whole dataset, zero when there are no words. -/
def engineMaxFreq (data : List Period) : Nat :=
  (allWordsOf data).foldl (fun m w => max m w.frequency) 0

/-- Modelled from the spec: minSud of the Normalizer, the minimum
clamped suddenness over the whole dataset, one when there are no words. -/
def engineMinSud (data : List Period) : Rat :=
  match allWordsOf data with
  | [] => 1
  | w :: ws => ws.foldl (fun m v => min m (clampSud v.sudden)) (clampSud w.sudden)

/-- Modelled from the spec: maxSud of the Normalizer, the maximum
clamped suddenness over the whole dataset, one when there are no words. -/
def engineMaxSud (data : List Period) : Rat :=
  match allWordsOf data with
  | [] => 1
  | w :: ws => ws.foldl (fun m v => max m (clampSud v.sudden)) (clampSud w.sudden)

/-- Modelled from the spec: configuration record of the Layout Facade.
The font setter appears commented out at the call site and does not
influence the computation. -/
structure WSConfig where
  width : Rat
  height : Rat
  fontScale : Rat → Rat
  minFontSize : Rat
  maxFontSize : Rat
  flag : Word → Rat
  font : String

/-- Modelled from the spec: topics derived as the union of all category
keys seen across all periods, in first-seen order. -/
def topicsOf (data : List Period) : List String :=
  data.foldl (fun acc p =>
    p.words.foldl (fun acc2 kv => if kv.1 ∈ acc2 then acc2 else acc2 ++ [kv.1]) acc) []

/-- Modelled from the spec: stacking weight of one word, the value of
the flag selector clamped below at zero per the InvalidWordError policy. -/
def wordWeight (flag : Word → Rat) (w : Word) : Rat :=
  max 0 (flag w)

/-- Modelled from the spec: total weight of one category in one period,
a missing category counts as zero frequency. -/
def weightAt (flag : Word → Rat) (p : Period) (c : String) : Rat :=
  (((List.lookup c p.words).getD []).map (wordWeight flag)).sum

/-- Modelled from the spec: total stack weight of one period over the
authoritative topic order. -/
def totalAt (flag : Word → Rat) (topics : List String) (p : Period) : Rat :=
  (topics.map (weightAt flag p)).sum

/-- Modelled from the spec: the tallest period total, used to normalize
thickness so the tallest stack fits the configured height. -/
def maxTotalOf (flag : Word → Rat) (topics : List String) (data : List Period) : Rat :=
  (data.map (totalAt flag topics)).foldl max 0

/-- Modelled from the spec: band thickness of category index c at period
index t; a zero maximum total yields zero thickness instead of a
division by zero. -/
def thickIdx (cfg : WSConfig) (data : List Period) (t c : Nat) : Rat :=
  let topics := topicsOf data
  let mt := maxTotalOf cfg.flag topics data
  if mt = 0 then 0
  else weightAt cfg.flag (data.getD t ⟨"", []⟩) (topics.getD c "") * cfg.height / mt

/-- Modelled from the spec: silhouette baseline of a period, centering
the whole stack in the configured height. -/
def baselineIdx (cfg : WSConfig) (data : List Period) (t : Nat) : Rat :=
  (cfg.height - (Finset.range (topicsOf data).length).sum (fun k => thickIdx cfg data t k)) / 2

/-- Modelled from the spec: cumulative stack offset of category index c
at period index t, the baseline plus the thickness of the categories
below it. -/
def y0Idx (cfg : WSConfig) (data : List Period) (t c : Nat) : Rat :=
  baselineIdx cfg data t + (Finset.range c).sum (fun k => thickIdx cfg data t k)

/-- Modelled from the spec: evenly spaced horizontal slot center of
period index t. -/
def xIdx (cfg : WSConfig) (data : List Period) (t : Nat) : Rat :=
  if data.length = 0 then 0
  else cfg.width * ((t : Rat) + 1 / 2) / (data.length : Rat)

/-- Modelled from the spec: layer point of category index c at period
index t. -/
def layerPointIdx (cfg : WSConfig) (data : List Period) (t c : Nat) : LPoint :=
  { x := xIdx cfg data t, y0 := y0Idx cfg data t c, y := thickIdx cfg data t c }

/-- Modelled from the spec: duplication of the boundary entries of a
layer at position 0 and at the end, for closed-area rendering. -/
def dupEnds (pts : List LPoint) : List LPoint :=
  match pts with
  | [] => []
  | q :: rest => q :: ((q :: rest) ++ [rest.getLastD q])

/-- Modelled from the spec: layers output of the Band Stacker, one layer
per topic, one point per period plus the duplicated end points. -/
def layersOf (cfg : WSConfig) (data : List Period) : List (List LPoint) :=
  (List.range (topicsOf data).length).map (fun c =>
    dupEnds ((List.range data.length).map (fun t => layerPointIdx cfg data t c)))

/-- Modelled from the spec: font size of a word, the configured
interpolation of normalized frequency into the configured range; a zero
maximum frequency yields the minimum font size. -/
def fontSizeOf (cfg : WSConfig) (maxF : Nat) (w : Word) : Rat :=
  if maxF = 0 then cfg.minFontSize
  else cfg.minFontSize
    + (cfg.maxFontSize - cfg.minFontSize) * cfg.fontScale ((w.frequency : Rat) / (maxF : Rat))

/-- Modelled from the spec: stable insertion of a word into a list
sorted by descending frequency, words of equal frequency keep their
original order. -/
def insertDesc (w : Word) : List Word → List Word
  | [] => [w]
  | v :: vs => if v.frequency < w.frequency then w :: v :: vs else v :: insertDesc w vs

/-- Modelled from the spec: stable sort of the candidate words of a cell
by descending frequency. -/
def sortDesc : List Word → List Word
  | [] => []
  | w :: ws => insertDesc w (sortDesc ws)

/-- Modelled from the spec: fold state of the greedy packer of one cell,
a vertical cursor of consumed space and the annotated words so far. -/
structure PackState where
  cursor : Rat
  out : List Word

/-- Modelled from the spec: greedy word placement within the band of one
category at one period.  Candidates are taken in descending frequency
order; one that still fits the remaining vertical space is placed at the
cursor, the rest are marked unplaced with the band center as fallback
position.  Every word is annotated with timeStep and topic. -/
def packCell (cfg : WSConfig) (maxF : Nat) (x0 bandY0 bandTh : Rat) (t : Nat) (c : String)
    (ws : List Word) : List Word :=
  ((sortDesc ws).foldl (fun (st : PackState) w =>
    let fs := fontSizeOf cfg maxF w
    if st.cursor + fs ≤ bandTh then
      let placedW := { w with
                       x := x0, y := bandY0 + st.cursor + fs / 2, rotate := (0 : Rat),
                       fontSize := fs, placed := true, timeStep := t, topic := c }
      { cursor := st.cursor + fs, out := st.out ++ [placedW] }
    else
      let hiddenW := { w with
                       x := x0, y := bandY0 + bandTh / 2, rotate := (0 : Rat),
                       fontSize := fs, placed := false, timeStep := t, topic := c }
      { cursor := st.cursor, out := st.out ++ [hiddenW] })
    ⟨0, []⟩).out

/-- Modelled from the spec: dataset with the placement attributes
attached, packing each category of each period inside its band. -/
def packedData (cfg : WSConfig) (data : List Period) : List Period :=
  (List.range data.length).map (fun t =>
    let p := data.getD t ⟨"", []⟩
    { p with words := p.words.map (fun kv =>
        let cIdx := (topicsOf data).indexOf kv.1
        (kv.1, packCell cfg (engineMaxFreq data) (xIdx cfg data t)
          (y0Idx cfg data t cIdx) (thickIdx cfg data t cIdx) t kv.1 kv.2)) })

/-- Modelled from the spec: boxes output bundle of the facade. -/
structure Boxes where
  data : List Period
  layers : List (List LPoint)
  topics : List String

/-- Modelled from the spec: full accessor surface of one engine
invocation. -/
structure EngineOut where
  boxesOut : Boxes
  minSudOut : Rat
  maxSudOut : Rat
  maxFreqOut : Nat

/-- Modelled from the spec: the Layout Facade, one pure computation from
configuration and data to the whole accessor surface. -/
def wordStream (cfg : WSConfig) (data : List Period) : EngineOut :=
  { boxesOut := { data := packedData cfg data, layers := layersOf cfg data,
                  topics := topicsOf data },
    minSudOut := engineMinSud data,
    maxSudOut := engineMaxSud data,
    maxFreqOut := engineMaxFreq data }

/-- Word literal helper for concrete instances: identity fields set,
placement attributes at their pre-engine defaults. -/
def mkWord (text : String) (freq : Nat) (sud : Rat) : Word :=
  { text := text, frequency := freq, sudden := sud, sentiment := 0, placed := false,
    x := 0, y := 0, rotate := 0, fontSize := 0, timeStep := 0, topic := "", id := text }

/-- Concrete configuration used by witnesses. -/
def demoCfgA : WSConfig :=
  ⟨800, 600, id, 12, 60, fun w => (w.frequency : Rat), "Arial"⟩

/-- Concrete configuration equal to demoCfgA except for the unused font
field. -/
def demoCfgB : WSConfig :=
  ⟨800, 600, id, 12, 60, fun w => (w.frequency : Rat), "Courier"⟩

/-- Arbitrary rewrite of the placed flag of a word, leaving every other
field unchanged. -/
def setPlaced (f : Word → Bool) (w : Word) : Word :=
  { w with placed := f w }

/-- Arbitrary rewrite of the placed flags of all words of a period. -/
def setPlacedPeriod (f : Word → Bool) (p : Period) : Period :=
  { p with words := p.words.map (fun kv => (kv.1, kv.2.map (setPlaced f))) }

/-- Association list produced by the first loop of the reordering: the
categories of the global order that are present in the mapping, with
their word lists. -/
def firstPart (order : List String) (m : List (String × List Word)) :
    List (String × List Word) :=
  order.filterMap (fun c => (List.lookup c m).map (fun ws => (c, ws)))

example : engineMaxFreq [⟨"p1", [("topic", [mkWord "a" 10 2, mkWord "b" 1 1])]⟩,
    ⟨"p2", [("topic", [mkWord "a" 5 3])]⟩] = 10 := by decide

example : engineMinSud [⟨"p1", [("topic", [mkWord "a" 10 2, mkWord "b" 1 1])]⟩,
    ⟨"p2", [("topic", [mkWord "a" 5 3])]⟩] = 1 := by decide

example : engineMaxSud [⟨"p1", [("topic", [mkWord "a" 10 2, mkWord "b" 1 1])]⟩,
    ⟨"p2", [("topic", [mkWord "a" 5 3])]⟩] = 3 := by decide

example : engineMinSud [⟨"p1", [("topic", [mkWord "a" 10 (-2)])]⟩] = sudEps := by
  simp [engineMinSud, allWordsOf, mkWord, clampSud]

example : engineMinSud [] = 1 ∧ engineMaxSud [] = 1 ∧ engineMaxFreq [] = 0 := by decide

example : reorderWords ["B", "A"] [("A", []), ("C", []), ("B", [])]
    = [("B", []), ("A", []), ("C", [])] := by decide

example : topicsOf [⟨"p1", [("A", []), ("B", [])]⟩, ⟨"p2", [("C", []), ("A", [])]⟩]
    = ["A", "B", "C"] := by decide

example : allWordsOfBoxes [⟨"p1", [("A", [mkWord "a" 1 1])]⟩] ["A", "B"]
    = [some (mkWord "a" 1 1), none] := by decide

example : trajStep "a" ⟨"p1", [("A", [mkWord "b" 1 1, mkWord "a" 2 1]), ("B", [mkWord "a" 3 1])]⟩
    = some ⟨"p1", 0, 3, 2⟩ := by
  simp [trajStep, trajWordStep, mkWord, TrajEntry.mk.injEq]

example : trajStep "z" ⟨"p1", [("A", [mkWord "b" 1 1])]⟩ = none := by decide

example : boundaryOf [[⟨0, 1, 2⟩, ⟨5, 1, 2⟩], [⟨0, 3, 2⟩, ⟨5, 3, 2⟩]]
    = [⟨0, 1, 1⟩, ⟨5, 1, 1⟩, ⟨5, 3, 5⟩, ⟨0, 3, 5⟩] := by
  simp [boundaryOf, LPoint.mk.injEq]
  norm_num

example : dupEnds [⟨0, 1, 2⟩, ⟨5, 1, 2⟩] = [⟨0, 1, 2⟩, ⟨0, 1, 2⟩, ⟨5, 1, 2⟩, ⟨5, 1, 2⟩] := by decide

example : pointsOf [⟨0, 1, 2⟩] = [⟨0, 3, 0⟩] := by
  simp [pointsOf]
  norm_num

example : wordCenterYAt [⟨0, 1, 2⟩, ⟨1, 1, 4⟩, ⟨2, 1, 2⟩] 0 = some 3 := by
  simp [wordCenterYAt]
  norm_num

/-! ## Helper lemmas on fold extrema -/

lemma foldl_min_le_init {α : Type} [LinearOrder α] (l : List α) (init : α) :
    l.foldl min init ≤ init := by
  induction l generalizing init with
  | nil => exact le_refl _
  | cons a t ih =>
    calc t.foldl min (min init a) ≤ min init a := ih _
    _ ≤ init := min_le_left _ _

lemma foldl_min_le_mem {α : Type} [LinearOrder α] (l : List α) (init : α) :
    ∀ x ∈ l, l.foldl min init ≤ x := by
  induction l generalizing init with
  | nil => intro x hx; cases hx
  | cons a t ih =>
    intro x hx
    rcases List.mem_cons.mp hx with rfl | hx
    · calc t.foldl min (min init x) ≤ min init x := foldl_min_le_init _ _
      _ ≤ x := min_le_right _ _
    · exact ih _ x hx

lemma foldl_min_eq_init_or_mem {α : Type} [LinearOrder α] (l : List α) (init : α) :
    l.foldl min init = init ∨ l.foldl min init ∈ l := by
  induction l generalizing init with
  | nil => left; rfl
  | cons a t ih =>
    rw [List.foldl_cons]
    rcases ih (min init a) with h | h
    · rcases le_total init a with hle | hle
      · left; rw [h, min_eq_left hle]
      · right; rw [h, min_eq_right hle]; exact List.mem_cons_self _ _
    · right; exact List.mem_cons_of_mem _ h

lemma init_le_foldl_max {α : Type} [LinearOrder α] (l : List α) (init : α) :
    init ≤ l.foldl max init := by
  induction l generalizing init with
  | nil => exact le_refl _
  | cons a t ih =>
    calc init ≤ max init a := le_max_left _ _
    _ ≤ t.foldl max (max init a) := ih _

lemma mem_le_foldl_max {α : Type} [LinearOrder α] (l : List α) (init : α) :
    ∀ x ∈ l, x ≤ l.foldl max init := by
  induction l generalizing init with
  | nil => intro x hx; cases hx
  | cons a t ih =>
    intro x hx
    rcases List.mem_cons.mp hx with rfl | hx
    · calc x ≤ max init x := le_max_right _ _
      _ ≤ t.foldl max (max init x) := init_le_foldl_max _ _
    · exact ih _ x hx

lemma foldl_max_eq_init_or_mem {α : Type} [LinearOrder α] (l : List α) (init : α) :
    l.foldl max init = init ∨ l.foldl max init ∈ l := by
  induction l generalizing init with
  | nil => left; rfl
  | cons a t ih =>
    rw [List.foldl_cons]
    rcases ih (max init a) with h | h
    · rcases le_total a init with hle | hle
      · left; rw [h, max_eq_left hle]
      · right; rw [h, max_eq_right hle]; exact List.mem_cons_self _ _
    · right; exact List.mem_cons_of_mem _ h

/-! ## Positivity of the clamped suddenness extremes -/

lemma sudEps_pos : 0 < sudEps := by norm_num [sudEps]

lemma clampSud_pos (s : Rat) : 0 < clampSud s := by
  unfold clampSud
  split
  · exact sudEps_pos
  · exact lt_of_not_le (by assumption)

lemma engineMinSud_pos (data : List Period) : 0 < engineMinSud data := by
  unfold engineMinSud
  split
  · norm_num
  · rename_i w ws _
    have hrw : ws.foldl (fun m v => min m (clampSud v.sudden)) (clampSud w.sudden)
        = (ws.map (fun v => clampSud v.sudden)).foldl min (clampSud w.sudden) := by
      rw [List.foldl_map]
    rw [hrw]
    rcases foldl_min_eq_init_or_mem (ws.map (fun v => clampSud v.sudden)) (clampSud w.sudden)
      with h | h
    · rw [h]; exact clampSud_pos _
    · rcases List.mem_map.mp h with ⟨v, _, hv⟩
      rw [← hv]; exact clampSud_pos _

lemma engineMinSud_eq (data : List Period) (v : Word) (vs : List Word)
    (hl : allWordsOf data = v :: vs) :
    engineMinSud data
      = (vs.map (fun u => clampSud u.sudden)).foldl min (clampSud v.sudden) := by
  unfold engineMinSud
  rw [hl]
  exact (List.foldl_map _ _ _ _).symm

lemma engineMaxSud_eq (data : List Period) (v : Word) (vs : List Word)
    (hl : allWordsOf data = v :: vs) :
    engineMaxSud data
      = (vs.map (fun u => clampSud u.sudden)).foldl max (clampSud v.sudden) := by
  unfold engineMaxSud
  rw [hl]
  exact (List.foldl_map _ _ _ _).symm

lemma engineMaxFreq_eq (data : List Period) :
    engineMaxFreq data = ((allWordsOf data).map (fun w => w.frequency)).foldl max 0 := by
  unfold engineMaxFreq
  exact (List.foldl_map _ _ _ _).symm

/-! ## Claim theorems -/

/-- C4: for every word bound by the renderer, the SVG visibility
attribute is "visible" exactly when the placed flag is true, and
"hidden" exactly when it is false, on both the enter rendering and the
update transition. -/
theorem visibility_matches_placed :
    ∀ w : Word,
      (enterVisibility w = "visible" ↔ w.placed = true)
      ∧ (enterVisibility w = "hidden" ↔ w.placed = false)
      ∧ (updateVisibility w = "visible" ↔ w.placed = true)
      ∧ (updateVisibility w = "hidden" ↔ w.placed = false) := by
  intro w
  cases h : w.placed <;> simp [enterVisibility, updateVisibility, h]

/-- C4 witness: the theorem instantiated on a concrete placed word. -/
theorem visibility_matches_placed_witness :
    enterVisibility { mkWord "a" 1 1 with placed := true } = "visible"
      ↔ ({ mkWord "a" 1 1 with placed := true } : Word).placed = true :=
  (visibility_matches_placed { mkWord "a" 1 1 with placed := true }).1

/-- C3 counterexample: the caller performs no clamping on the lower
bound of the log-scale domain; at minSud equal to zero the domain lower
bound it passes is zero, not a positive epsilon. -/
theorem opacity_domain_no_caller_clamp :
    (opacityDomain 0 1).1 = 0 ∧ ¬ 0 < (opacityDomain 0 1).1 := by
  constructor
  · rfl
  · simp [opacityDomain]

/-- C3 (amended): the caller passes minSud and maxSud unchanged to the
log scale; the lower bound of the domain is nevertheless strictly
positive for every dataset, because the engine clamps nonpositive
suddenness values to a positive epsilon at computation time and returns
one on an empty dataset. -/
theorem opacity_domain_lower_bound_pos :
    ∀ data : List Period, 0 < (opacityDomain (engineMinSud data) (engineMaxSud data)).1 := by
  intro data
  exact engineMinSud_pos data

/-- C1: maxFreq is the true maximum word frequency over all periods,
categories and words; minSud and maxSud are the true minimum and
maximum of the epsilon-clamped suddenness values; on a dataset with no
words at all, maxFreq is zero and minSud and maxSud are one. -/
theorem scale_domain_correctness (data : List Period) :
    (∀ w ∈ allWordsOf data, w.frequency ≤ engineMaxFreq data)
    ∧ (allWordsOf data ≠ [] → ∃ w ∈ allWordsOf data, engineMaxFreq data = w.frequency)
    ∧ (∀ w ∈ allWordsOf data,
        engineMinSud data ≤ clampSud w.sudden ∧ clampSud w.sudden ≤ engineMaxSud data)
    ∧ (allWordsOf data ≠ [] →
        (∃ w ∈ allWordsOf data, engineMinSud data = clampSud w.sudden)
        ∧ (∃ w ∈ allWordsOf data, engineMaxSud data = clampSud w.sudden))
    ∧ (allWordsOf data = [] →
        engineMaxFreq data = 0 ∧ engineMinSud data = 1 ∧ engineMaxSud data = 1) := by
  refine ⟨?_, ?_, ?_, ?_, ?_⟩
  · intro w hw
    rw [engineMaxFreq_eq]
    exact mem_le_foldl_max _ _ _ (List.mem_map_of_mem _ hw)
  · intro hne
    rcases foldl_max_eq_init_or_mem ((allWordsOf data).map (fun w => w.frequency)) 0
      with h | h
    · cases hl : allWordsOf data with
      | nil => exact absurd hl hne
      | cons v vs =>
        refine ⟨v, List.mem_cons_self _ _, ?_⟩
        have hb : v.frequency ≤ engineMaxFreq data := by
          rw [engineMaxFreq_eq]
          refine mem_le_foldl_max _ _ _ (List.mem_map_of_mem _ ?_)
          rw [hl]
          exact List.mem_cons_self _ _
        have h0 : engineMaxFreq data = 0 := by rw [engineMaxFreq_eq, h]
        omega
    · rcases List.mem_map.mp h with ⟨w, hw, hv⟩
      exact ⟨w, hw, by rw [engineMaxFreq_eq, ← hv]⟩
  · cases hl : allWordsOf data with
    | nil => intro w hw; cases hw
    | cons v vs =>
      intro w hw
      rw [engineMinSud_eq data v vs hl, engineMaxSud_eq data v vs hl]
      rcases List.mem_cons.mp hw with rfl | hw
      · exact ⟨foldl_min_le_init _ _, init_le_foldl_max _ _⟩
      · exact ⟨foldl_min_le_mem _ _ _ (List.mem_map_of_mem _ hw),
          mem_le_foldl_max _ _ _ (List.mem_map_of_mem _ hw)⟩
  · intro hne
    cases hl : allWordsOf data with
    | nil => exact absurd hl hne
    | cons v vs =>
      constructor
      · rw [engineMinSud_eq data v vs hl]
        rcases foldl_min_eq_init_or_mem (vs.map (fun u => clampSud u.sudden))
            (clampSud v.sudden) with h | h
        · exact ⟨v, List.mem_cons_self _ _, h⟩
        · rcases List.mem_map.mp h with ⟨u, hu, hv⟩
          exact ⟨u, List.mem_cons_of_mem _ hu, hv.symm⟩
      · rw [engineMaxSud_eq data v vs hl]
        rcases foldl_max_eq_init_or_mem (vs.map (fun u => clampSud u.sudden))
            (clampSud v.sudden) with h | h
        · exact ⟨v, List.mem_cons_self _ _, h⟩
        · rcases List.mem_map.mp h with ⟨u, hu, hv⟩
          exact ⟨u, List.mem_cons_of_mem _ hu, hv.symm⟩
  · intro hl
    refine ⟨by rw [engineMaxFreq_eq, hl]; rfl, ?_, ?_⟩
    · unfold engineMinSud; rw [hl]
    · unfold engineMaxSud; rw [hl]

/-- C1 witness: the theorem instantiated on a concrete two-period
dataset, where the maximum frequency is attained and the suddenness
extremes are attained by clamped values. -/
theorem scale_domain_correctness_witness :
    (allWordsOf [⟨"p1", [("topic", [mkWord "a" 10 2, mkWord "b" 1 1])]⟩,
        ⟨"p2", [("topic", [mkWord "a" 5 3])]⟩] ≠ [])
    ∧ (∃ w ∈ allWordsOf [⟨"p1", [("topic", [mkWord "a" 10 2, mkWord "b" 1 1])]⟩,
        ⟨"p2", [("topic", [mkWord "a" 5 3])]⟩],
        engineMaxFreq [⟨"p1", [("topic", [mkWord "a" 10 2, mkWord "b" 1 1])]⟩,
          ⟨"p2", [("topic", [mkWord "a" 5 3])]⟩] = w.frequency) := by
  have hne : allWordsOf [⟨"p1", [("topic", [mkWord "a" 10 2, mkWord "b" 1 1])]⟩,
      ⟨"p2", [("topic", [mkWord "a" 5 3])]⟩] ≠ [] := by decide
  exact ⟨hne, (scale_domain_correctness _).2.1 hne⟩

/-- C5: when the first and the last layer have the same length, as the
duplicated boundary entries of the engine output guarantee, the boundary
array is exactly the top boundary of the first layer followed by the
reversed bottom boundary of the last layer, the halving index of the
path construction falls exactly at the junction, and the combined path
is the first half rendered, an L join, the second half rendered with its
leading move character removed, and a closing Z. -/
theorem boundary_closed_outline (layers : List (List LPoint)) (L : Nat)
    (line : List LPoint → String)
    (h0 : (layers.headD []).length = L)
    (h1 : (layers.getLastD []).length = L) :
    (boundaryOf layers).length = 2 * L
    ∧ (boundaryOf layers).take L = (layers.headD []).map (fun p => { p with y := p.y0 })
    ∧ (boundaryOf layers).drop L
        = (layers.getLastD []).reverse.map (fun p => { p with y := p.y + p.y0 })
    ∧ combinedPath line (boundaryOf layers)
        = line ((layers.headD []).map (fun p => { p with y := p.y0 }))
          ++ "L"
          ++ (line ((layers.getLastD []).reverse.map
              (fun p => { p with y := p.y + p.y0 }))).drop 1
          ++ "Z" := by
  have hAlen : ((layers.headD []).map (fun p => { p with y := p.y0 })).length = L := by
    rw [List.length_map, h0]
  have hBlen : ((layers.getLastD []).reverse.map
      (fun p => { p with y := p.y + p.y0 })).length = L := by
    rw [List.length_map, List.length_reverse, h1]
  have hlen : (boundaryOf layers).length = 2 * L := by
    rw [boundaryOf, List.length_append, hAlen, hBlen]
    omega
  have htake : (boundaryOf layers).take L
      = (layers.headD []).map (fun p => { p with y := p.y0 }) := by
    rw [boundaryOf]
    exact List.take_left' hAlen
  have hdrop : (boundaryOf layers).drop L
      = (layers.getLastD []).reverse.map (fun p => { p with y := p.y + p.y0 }) := by
    rw [boundaryOf]
    exact List.drop_left' hAlen
  refine ⟨hlen, htake, hdrop, ?_⟩
  rw [combinedPath, hlen, Nat.mul_div_cancel_left L (by omega), htake, hdrop]

/-- C5 witness: the theorem instantiated on two concrete layers of two
points each and a constant line renderer. -/
theorem boundary_closed_outline_witness :
    ((([[⟨0, 1, 2⟩, ⟨5, 1, 2⟩], [⟨0, 3, 2⟩, ⟨5, 3, 2⟩]] : List (List LPoint)).headD []).length = 2)
    ∧ ((([[⟨0, 1, 2⟩, ⟨5, 1, 2⟩], [⟨0, 3, 2⟩, ⟨5, 3, 2⟩]] : List (List LPoint)).getLastD []).length = 2)
    ∧ (boundaryOf [[⟨0, 1, 2⟩, ⟨5, 1, 2⟩], [⟨0, 3, 2⟩, ⟨5, 3, 2⟩]]).length = 2 * 2 :=
  ⟨rfl, rfl,
    (boundary_closed_outline [[⟨0, 1, 2⟩, ⟨5, 1, 2⟩], [⟨0, 3, 2⟩, ⟨5, 3, 2⟩]] 2
      (fun _ => "M") rfl rfl).1⟩

/-- C6: when the stream layer is an inner point sequence of length P
with one duplicated boundary point at each end, every consumer access at
index timeStep + 1 with timeStep < P is in bounds and selects the point
of that period: the click handler points array lookup and the zoom tour
average-Y step both return the entry derived from the inner point at
index timeStep. -/
theorem timestep_lookup_in_bounds (b0 b1 : LPoint) (inner : List LPoint) (P t : Nat)
    (hP : inner.length = P) (ht : t < P) :
    (t + 1 < (b0 :: inner ++ [b1]).length)
    ∧ clickPointAt (pointsOf (b0 :: inner ++ [b1])) t
        = (inner.get? t).map (fun e => { x := e.x, y0 := e.y0 + e.y, y := 0 })
    ∧ (inner.get? t).isSome
    ∧ wordCenterYAt (b0 :: inner ++ [b1]) t
        = (inner.get? t).map (fun p => p.y0 + p.y / 2) := by
  have htlen : t < inner.length := by omega
  have hlen : (b0 :: inner ++ [b1]).length = P + 2 := by
    simp [hP]
  have hget : (b0 :: inner ++ [b1]).get? (t + 1) = inner.get? t := by
    have hstep : (b0 :: inner ++ [b1]).get? (t + 1) = (inner ++ [b1]).get? t := rfl
    rw [hstep]
    exact List.get?_append htlen
  refine ⟨by omega, ?_, ?_, ?_⟩
  · rw [clickPointAt, pointsOf, List.get?_map, hget]
  · rw [List.get?_eq_get htlen]
    rfl
  · rw [wordCenterYAt, if_pos (by omega : t + 1 < (b0 :: inner ++ [b1]).length), hget]

/-- C6 witness: the theorem instantiated on a three-point layer with one
inner period. -/
theorem timestep_lookup_in_bounds_witness :
    ([(⟨1, 1, 4⟩ : LPoint)].length = 1)
    ∧ (0 < 1)
    ∧ wordCenterYAt ((⟨0, 1, 2⟩ : LPoint) :: [(⟨1, 1, 4⟩ : LPoint)] ++ [(⟨2, 1, 2⟩ : LPoint)]) 0
        = (([(⟨1, 1, 4⟩ : LPoint)]).get? 0).map (fun p => p.y0 + p.y / 2) :=
  ⟨rfl, by omega,
    (timestep_lookup_in_bounds ⟨0, 1, 2⟩ ⟨2, 1, 2⟩ [⟨1, 1, 4⟩] 1 0 rfl (by omega)).2.2.2⟩

lemma allWordsOfBoxes_row_eq (row : Period) (topics : List String)
    (h : ∀ t ∈ topics, (List.lookup t row.words).isSome) :
    topics.flatMap (fun t =>
        match List.lookup t row.words with
        | some ws => ws.map some
        | none => [none])
      = (topics.flatMap (fun t => (List.lookup t row.words).getD [])).map some := by
  induction topics with
  | nil => rfl
  | cons t ts ih =>
    rcases Option.isSome_iff_exists.mp (h t (List.mem_cons_self _ _)) with ⟨ws, hws⟩
    rw [List.flatMap_cons, List.flatMap_cons, List.map_append, hws,
      ih (fun u hu => h u (List.mem_cons_of_mem _ hu))]
    rfl

/-- C10: when every period has an entry for every topic, the allWords
collection built by draw is exactly the concatenation, period by period
and topic by topic, of the word lists, and every element of it is a
defined word; when some period lacks a key for some topic, a single
undefined element is inserted instead. -/
theorem allwords_concatenation (data : List Period) (topics : List String) :
    ((∀ p ∈ data, ∀ t ∈ topics, (List.lookup t p.words).isSome) →
        allWordsOfBoxes data topics
          = (data.flatMap (fun row =>
              topics.flatMap (fun t => (List.lookup t row.words).getD []))).map some
        ∧ ∀ e ∈ allWordsOfBoxes data topics, e.isSome)
    ∧ ((∃ p ∈ data, ∃ t ∈ topics, List.lookup t p.words = none) →
        none ∈ allWordsOfBoxes data topics) := by
  constructor
  · intro h
    have heq : allWordsOfBoxes data topics
        = (data.flatMap (fun row =>
            topics.flatMap (fun t => (List.lookup t row.words).getD []))).map some := by
      unfold allWordsOfBoxes
      induction data with
      | nil => rfl
      | cons row rows ih =>
        rw [List.flatMap_cons, List.flatMap_cons, List.map_append,
          allWordsOfBoxes_row_eq row topics (h row (List.mem_cons_self _ _)),
          ih (fun p hp => h p (List.mem_cons_of_mem _ hp))]
    refine ⟨heq, ?_⟩
    intro e he
    rw [heq] at he
    rcases List.mem_map.mp he with ⟨w, _, hw⟩
    rw [← hw]
    rfl
  · rintro ⟨p, hp, t, htt, hnone⟩
    unfold allWordsOfBoxes
    refine List.mem_flatMap.mpr ⟨p, hp, List.mem_flatMap.mpr ⟨t, htt, ?_⟩⟩
    rw [hnone]
    exact List.mem_singleton.mpr rfl

/-- C10 witness: the theorem instantiated on a one-period dataset, once
with full topic coverage and once with a missing topic key. -/
theorem allwords_concatenation_witness :
    (∀ p ∈ [Period.mk "p1" [("A", [mkWord "a" 1 1])]], ∀ t ∈ ["A"],
        (List.lookup t p.words).isSome)
    ∧ allWordsOfBoxes [Period.mk "p1" [("A", [mkWord "a" 1 1])]] ["A"]
        = ([Period.mk "p1" [("A", [mkWord "a" 1 1])]].flatMap (fun row =>
            ["A"].flatMap (fun t => (List.lookup t row.words).getD []))).map some
    ∧ (∃ p ∈ [Period.mk "p1" [("A", [mkWord "a" 1 1])]], ∃ t ∈ ["A", "B"],
        List.lookup t p.words = none)
    ∧ none ∈ allWordsOfBoxes [Period.mk "p1" [("A", [mkWord "a" 1 1])]] ["A", "B"] := by
  refine ⟨by decide, ((allwords_concatenation _ _).1 (by decide)).1, by decide, ?_⟩
  exact (allwords_concatenation [Period.mk "p1" [("A", [mkWord "a" 1 1])]] ["A", "B"]).2
    (by decide)

/-- C7: the engine is a pure function of the listed configuration
fields and the data: two invocations whose configurations agree on
size, fontScale, minFontSize, maxFontSize and flag, on identical data,
return identical boxes, minSud, maxSud and maxFreq; the unused font
field may differ. -/
theorem engine_deterministic (c1 c2 : WSConfig) (data : List Period)
    (hw : c1.width = c2.width) (hh : c1.height = c2.height)
    (hfs : c1.fontScale = c2.fontScale) (hmin : c1.minFontSize = c2.minFontSize)
    (hmax : c1.maxFontSize = c2.maxFontSize) (hflag : c1.flag = c2.flag) :
    (wordStream c1 data).boxesOut.data = (wordStream c2 data).boxesOut.data
    ∧ (wordStream c1 data).boxesOut.layers = (wordStream c2 data).boxesOut.layers
    ∧ (wordStream c1 data).boxesOut.topics = (wordStream c2 data).boxesOut.topics
    ∧ (wordStream c1 data).minSudOut = (wordStream c2 data).minSudOut
    ∧ (wordStream c1 data).maxSudOut = (wordStream c2 data).maxSudOut
    ∧ (wordStream c1 data).maxFreqOut = (wordStream c2 data).maxFreqOut := by
  obtain ⟨w1, h1, f1, mi1, ma1, fl1, fo1⟩ := c1
  obtain ⟨w2, h2, f2, mi2, ma2, fl2, fo2⟩ := c2
  simp only at hw hh hfs hmin hmax hflag
  subst hw hh hfs hmin hmax hflag
  exact ⟨rfl, rfl, rfl, rfl, rfl, rfl⟩

/-- C7 witness: the theorem applied to two concrete configurations that
differ only in the font field, on a concrete dataset. -/
theorem engine_deterministic_witness :
    demoCfgA.width = demoCfgB.width
    ∧ demoCfgA.flag = demoCfgB.flag
    ∧ (wordStream demoCfgA [Period.mk "p1" [("A", [mkWord "a" 2 1])]]).minSudOut
        = (wordStream demoCfgB [Period.mk "p1" [("A", [mkWord "a" 2 1])]]).minSudOut :=
  ⟨rfl, rfl,
    (engine_deterministic demoCfgA demoCfgB [Period.mk "p1" [("A", [mkWord "a" 2 1])]]
      rfl rfl rfl rfl rfl rfl).2.2.2.1⟩

/-! ## Nonnegativity of band thickness -/

lemma weightAt_nonneg (flag : Word → Rat) (p : Period) (c : String) :
    0 ≤ weightAt flag p c := by
  refine List.sum_nonneg ?_
  intro x hx
  rcases List.mem_map.mp hx with ⟨w, _, hw⟩
  rw [← hw]
  exact le_max_left _ _

lemma maxTotalOf_nonneg (flag : Word → Rat) (topics : List String) (data : List Period) :
    0 ≤ maxTotalOf flag topics data :=
  init_le_foldl_max _ _

lemma thickIdx_nonneg (cfg : WSConfig) (data : List Period) (t c : Nat)
    (hh : 0 ≤ cfg.height) : 0 ≤ thickIdx cfg data t c := by
  unfold thickIdx
  dsimp only
  split
  · exact le_refl 0
  · exact div_nonneg (mul_nonneg (weightAt_nonneg _ _ _) hh)
      (maxTotalOf_nonneg _ _ _)

/-! ## Indexing of the layers output -/

lemma layersOf_getD (cfg : WSConfig) (data : List Period) (c : Nat)
    (hc : c < (topicsOf data).length) :
    (layersOf cfg data).getD c []
      = dupEnds ((List.range data.length).map (fun t => layerPointIdx cfg data t c)) := by
  unfold layersOf
  rw [List.getD_eq_get?, List.get?_map, List.get?_range hc]
  rfl

lemma dupEnds_getD (pts : List LPoint) (t : Nat) (ht : t < pts.length) (d : LPoint) :
    (dupEnds pts).getD (t + 1) d = pts.getD t d := by
  cases pts with
  | nil => cases ht
  | cons q rest =>
    show ((q :: rest) ++ [rest.getLastD q]).getD t d = (q :: rest).getD t d
    rw [List.getD_eq_get?, List.getD_eq_get?, List.get?_append ht]

lemma range_map_getD (n : Nat) (f : Nat → LPoint) (t : Nat) (ht : t < n) (d : LPoint) :
    ((List.range n).map f).getD t d = f t := by
  rw [List.getD_eq_get?, List.get?_map, List.get?_range ht]
  rfl

lemma layer_entry (cfg : WSConfig) (data : List Period) (c t : Nat)
    (hc : c < (topicsOf data).length) (ht : t < data.length) :
    ((layersOf cfg data).getD c []).getD (t + 1) default = layerPointIdx cfg data t c := by
  rw [layersOf_getD cfg data c hc,
    dupEnds_getD _ t (by rw [List.length_map, List.length_range]; exact ht) _,
    range_map_getD data.length _ t ht]

/-! ## Stacking order arithmetic -/

lemma y0Idx_succ (cfg : WSConfig) (data : List Period) (t i : Nat) :
    y0Idx cfg data t i + thickIdx cfg data t i = y0Idx cfg data t (i + 1) := by
  unfold y0Idx
  rw [Finset.sum_range_succ]
  ring

lemma y0Idx_mono (cfg : WSConfig) (data : List Period) (t : Nat) (hh : 0 ≤ cfg.height)
    (i j : Nat) (hij : i < j) :
    y0Idx cfg data t i + thickIdx cfg data t i ≤ y0Idx cfg data t j := by
  rw [y0Idx_succ]
  unfold y0Idx
  have hsub : Finset.range (i + 1) ⊆ Finset.range j := Finset.range_subset.mpr hij
  have hsum : (Finset.range (i + 1)).sum (fun k => thickIdx cfg data t k)
      ≤ (Finset.range j).sum (fun k => thickIdx cfg data t k) :=
    Finset.sum_le_sum_of_subset_of_nonneg hsub
      (fun k _ _ => thickIdx_nonneg cfg data t k hh)
  linarith

/-- C2: in the layers output of the modelled Band Stacker, for every
period and any two distinct categories the vertical intervals from y0 to
y0 + y of their layer entries at that period do not overlap, touching at
boundaries only; adjacent bands touch exactly, so the bands of a period
partition the vertical extent. -/
theorem layers_no_overlap (cfg : WSConfig) (data : List Period) (hh : 0 ≤ cfg.height)
    (t i j : Nat) (ht : t < data.length)
    (hi : i < (topicsOf data).length) (hj : j < (topicsOf data).length) (hij : i ≠ j) :
    ((((layersOf cfg data).getD i []).getD (t + 1) default).y0
        + (((layersOf cfg data).getD i []).getD (t + 1) default).y
        ≤ (((layersOf cfg data).getD j []).getD (t + 1) default).y0
      ∨ (((layersOf cfg data).getD j []).getD (t + 1) default).y0
        + (((layersOf cfg data).getD j []).getD (t + 1) default).y
        ≤ (((layersOf cfg data).getD i []).getD (t + 1) default).y0)
    ∧ (i + 1 = j →
        (((layersOf cfg data).getD i []).getD (t + 1) default).y0
          + (((layersOf cfg data).getD i []).getD (t + 1) default).y
          = (((layersOf cfg data).getD j []).getD (t + 1) default).y0) := by
  rw [layer_entry cfg data i t hi ht, layer_entry cfg data j t hj ht]
  unfold layerPointIdx
  constructor
  · rcases Nat.lt_or_ge i j with hlt | hge
    · left
      exact y0Idx_mono cfg data t hh i j hlt
    · right
      have hlt : j < i := lt_of_le_of_ne hge (fun hEq => hij hEq.symm)
      exact y0Idx_mono cfg data t hh j i hlt
  · intro hsucc
    rw [← hsucc]
    exact y0Idx_succ cfg data t i

/-- C2 witness: the theorem applied to a concrete configuration and a
concrete one-period dataset with two categories. -/
theorem layers_no_overlap_witness :
    (0 ≤ demoCfgA.height)
    ∧ (0 < [Period.mk "p1" [("A", [mkWord "a" 2 1]), ("B", [mkWord "b" 1 1])]].length)
    ∧ (1 < (topicsOf [Period.mk "p1" [("A", [mkWord "a" 2 1]), ("B", [mkWord "b" 1 1])]]).length)
    ∧ ((((layersOf demoCfgA [Period.mk "p1" [("A", [mkWord "a" 2 1]), ("B", [mkWord "b" 1 1])]]).getD 0 []).getD 1 default).y0
        + (((layersOf demoCfgA [Period.mk "p1" [("A", [mkWord "a" 2 1]), ("B", [mkWord "b" 1 1])]]).getD 0 []).getD 1 default).y
        ≤ (((layersOf demoCfgA [Period.mk "p1" [("A", [mkWord "a" 2 1]), ("B", [mkWord "b" 1 1])]]).getD 1 []).getD 1 default).y0
      ∨ (((layersOf demoCfgA [Period.mk "p1" [("A", [mkWord "a" 2 1]), ("B", [mkWord "b" 1 1])]]).getD 1 []).getD 1 default).y0
        + (((layersOf demoCfgA [Period.mk "p1" [("A", [mkWord "a" 2 1]), ("B", [mkWord "b" 1 1])]]).getD 1 []).getD 1 default).y
        ≤ (((layersOf demoCfgA [Period.mk "p1" [("A", [mkWord "a" 2 1]), ("B", [mkWord "b" 1 1])]]).getD 0 []).getD 1 default).y0) :=
  ⟨by decide, by decide, by decide,
    (layers_no_overlap demoCfgA
      [Period.mk "p1" [("A", [mkWord "a" 2 1]), ("B", [mkWord "b" 1 1])]]
      (by decide) 0 0 1 (by decide) (by decide) (by decide) (by decide)).1⟩

/-! ## Trajectory count characterization and placed-independence -/

lemma trajFold_count (wordText : String) (kvs : List (String × List Word)) (a : TrajAcc) :
    (kvs.foldl (trajWordStep wordText) a).count
      = a.count + kvs.countP (fun kv => (kv.2.find? (fun w => w.text == wordText)).isSome) := by
  induction kvs generalizing a with
  | nil => rfl
  | cons kv kvs ih =>
    rw [List.foldl_cons, List.countP_cons, ih]
    cases hfind : kv.2.find? (fun w => w.text == wordText) with
    | none =>
      simp [trajWordStep, hfind]
    | some found =>
      simp [trajWordStep, hfind]
      omega

lemma trajStep_isSome_iff (wordText : String) (p : Period) :
    (trajStep wordText p).isSome
      ↔ p.words.any (fun kv => kv.2.any (fun w => w.text == wordText)) = true := by
  unfold trajStep
  dsimp only
  constructor
  · intro h
    by_cases hc : (p.words.foldl (trajWordStep wordText) ⟨0, 0, 0⟩).count > 0
    · have hcount := trajFold_count wordText p.words ⟨0, 0, 0⟩
      rw [hcount] at hc
      simp only [Nat.zero_add] at hc
      rcases List.countP_pos_iff.mp hc with ⟨kv, hkv, hp⟩
      rcases List.find?_isSome.mp (by exact hp) with ⟨w, hw, hwt⟩
      exact List.any_eq_true.mpr ⟨kv, hkv, List.any_eq_true.mpr ⟨w, hw, hwt⟩⟩
    · rw [if_neg hc] at h
      cases h
  · intro h
    rcases List.any_eq_true.mp h with ⟨kv, hkv, hany⟩
    rcases List.any_eq_true.mp hany with ⟨w, hw, hwt⟩
    have hp : (kv.2.find? (fun u => u.text == wordText)).isSome :=
      List.find?_isSome.mpr ⟨w, hw, hwt⟩
    have hc : 0 < p.words.countP
        (fun kv => (kv.2.find? (fun w => w.text == wordText)).isSome) :=
      List.countP_pos_iff.mpr ⟨kv, hkv, hp⟩
    have hcount := trajFold_count wordText p.words ⟨0, 0, 0⟩
    rw [if_pos (by rw [hcount]; omega)]
    rfl

lemma trajWordStep_setPlaced (wordText : String) (f : Word → Bool) (a : TrajAcc)
    (kv : String × List Word) :
    trajWordStep wordText a (kv.1, kv.2.map (setPlaced f)) = trajWordStep wordText a kv := by
  unfold trajWordStep
  dsimp only
  rw [List.find?_map]
  cases hfind : kv.2.find? (fun w => w.text == wordText) with
  | none =>
    have : kv.2.find? ((fun w => w.text == wordText) ∘ setPlaced f) = none := hfind
    rw [this]
    rfl
  | some found =>
    have : kv.2.find? ((fun w => w.text == wordText) ∘ setPlaced f) = some found := hfind
    rw [this]
    rfl

lemma trajStep_setPlaced (wordText : String) (f : Word → Bool) (p : Period) :
    trajStep wordText (setPlacedPeriod f p) = trajStep wordText p := by
  unfold trajStep setPlacedPeriod
  dsimp only
  have hfold : ∀ (kvs : List (String × List Word)) (a : TrajAcc),
      (kvs.map (fun kv => (kv.1, kv.2.map (setPlaced f)))).foldl (trajWordStep wordText) a
        = kvs.foldl (trajWordStep wordText) a := by
    intro kvs
    induction kvs with
    | nil => intro a; rfl
    | cons kv kvs ih =>
      intro a
      rw [List.map_cons, List.foldl_cons, List.foldl_cons,
        trajWordStep_setPlaced wordText f a kv]
      exact ih _
  rw [hfold]

/-- C8: for every dataset and word text, openForWord builds exactly one
trajectory entry per period in which at least one category contains a
word with that text and none for other periods, and the trajectory is
unchanged under arbitrary rewrites of the placed flags, so unplaced
words still feed the sentiment trajectory. -/
theorem trajectory_from_all_words (wordText : String) (data : List Period)
    (f : Word → Bool) :
    (∀ p : Period, (trajStep wordText p).isSome
        ↔ p.words.any (fun kv => kv.2.any (fun w => w.text == wordText)) = true)
    ∧ (openForWordTrajectory wordText data).length
        = data.countP (fun p => p.words.any (fun kv => kv.2.any (fun w => w.text == wordText)))
    ∧ openForWordTrajectory wordText (data.map (setPlacedPeriod f))
        = openForWordTrajectory wordText data := by
  refine ⟨trajStep_isSome_iff wordText, ?_, ?_⟩
  · rw [openForWordTrajectory, List.length_filterMap_eq_countP]
    exact List.countP_congr (fun p _ => trajStep_isSome_iff wordText p)
  · rw [openForWordTrajectory, openForWordTrajectory, List.filterMap_map]
    have hfun : (trajStep wordText ∘ setPlacedPeriod f) = trajStep wordText := by
      funext p
      exact trajStep_setPlaced wordText f p
    rw [hfun]

/-- C8 witness: the length conclusion of the theorem instantiated on a
concrete one-period dataset. -/
theorem trajectory_from_all_words_witness :
    (openForWordTrajectory "a" [Period.mk "p1" [("A", [mkWord "a" 2 1])]]).length
      = [Period.mk "p1" [("A", [mkWord "a" 2 1])]].countP
          (fun p => p.words.any (fun kv => kv.2.any (fun w => w.text == "a"))) :=
  (trajectory_from_all_words "a" [Period.mk "p1" [("A", [mkWord "a" 2 1])]]
    (fun _ => false)).2.1

/-! ## Reordering of the words mapping -/

lemma lookup_isSome_of_mem_keys {α β : Type} [BEq α] [LawfulBEq α]
    (m : List (α × β)) (k : α) (h : k ∈ m.map Prod.fst) :
    (List.lookup k m).isSome := by
  rcases List.mem_map.mp h with ⟨kv, hkv, hfst⟩
  exact List.lookup_isSome_iff.mpr ⟨kv, hkv, by simp [hfst]⟩

lemma lookup_filter_key {α β : Type} [BEq α] [LawfulBEq α]
    (q : α → Bool) (m : List (α × β)) (k : α) :
    List.lookup k (m.filter (fun kv => q kv.1))
      = if q k then List.lookup k m else none := by
  induction m with
  | nil => simp
  | cons kv rest ih =>
    obtain ⟨a, b⟩ := kv
    by_cases hk : k = a
    · subst hk
      cases hq : q k
      · simp [List.filter_cons, hq, ih]
      · simp [List.filter_cons, hq, List.lookup_cons]
    · have hbeq : (k == a) = false := by simp [hk]
      cases hq : q a
      · simp [List.filter_cons, hq, ih, List.lookup_cons, hbeq]
      · simp [List.filter_cons, hq, ih, List.lookup_cons, hbeq]

lemma map_fst_filter_key {α β : Type} (q : α → Bool) (m : List (α × β)) :
    (m.filter (fun kv => q kv.1)).map Prod.fst = (m.map Prod.fst).filter q := by
  induction m with
  | nil => rfl
  | cons kv rest ih =>
    cases hq : q kv.1
    · simp [List.filter_cons, hq, ih]
    · simp [List.filter_cons, hq, ih]

lemma lookup_firstPart (order : List String) (m : List (String × List Word)) (k : String) :
    List.lookup k (firstPart order m)
      = if k ∈ order then List.lookup k m else none := by
  induction order with
  | nil => simp [firstPart]
  | cons c cs ih =>
    cases hc : List.lookup c m with
    | none =>
      have hred : firstPart (c :: cs) m = firstPart cs m := by
        unfold firstPart
        rw [List.filterMap_cons, hc]
        rfl
      rw [hred, ih]
      by_cases hk : k = c
      · subst hk
        by_cases hmem : k ∈ cs <;> simp [hmem, hc]
      · have : (k ∈ c :: cs) ↔ k ∈ cs := by simp [hk]
        rw [if_congr this rfl rfl]
    | some ws =>
      have hred : firstPart (c :: cs) m = (c, ws) :: firstPart cs m := by
        unfold firstPart
        rw [List.filterMap_cons, hc]
        rfl
      rw [hred]
      by_cases hk : k = c
      · subst hk
        rw [List.lookup_cons_self]
        simp [hc]
      · have hbeq : (k == c) = false := by simp [hk]
        rw [List.lookup_cons]
        simp only [hbeq]
        rw [ih]
        have : (k ∈ c :: cs) ↔ k ∈ cs := by simp [hk]
        rw [if_congr this rfl rfl]

lemma keys_firstPart (order : List String) (m : List (String × List Word)) :
    (firstPart order m).map Prod.fst
      = order.filter (fun c => (List.lookup c m).isSome) := by
  induction order with
  | nil => rfl
  | cons c cs ih =>
    unfold firstPart at ih ⊢
    rw [List.filterMap_cons, List.filter_cons]
    cases hc : List.lookup c m with
    | none => simp [hc, ih]
    | some ws => simp [hc, ih]

lemma firstFold_eq (m : List (String × List Word)) :
    ∀ (order : List String) (acc : List (String × List Word)),
      order.Nodup →
      (∀ c ∈ order, List.lookup c acc = none) →
      order.foldl (fun acc c =>
          match List.lookup c m with
          | some ws => if (List.lookup c acc).isSome then acc else acc ++ [(c, ws)]
          | none => acc) acc
        = acc ++ firstPart order m := by
  intro order
  induction order with
  | nil =>
    intro acc _ _
    simp [firstPart]
  | cons c cs ih =>
    intro acc hnd hdisj
    have hnd' : cs.Nodup := (List.nodup_cons.mp hnd).2
    have hcnotin : c ∉ cs := (List.nodup_cons.mp hnd).1
    rw [List.foldl_cons]
    cases hc : List.lookup c m with
    | none =>
      simp only [hc]
      rw [ih acc hnd' (fun u hu => hdisj u (List.mem_cons_of_mem _ hu))]
      simp [firstPart, List.filterMap_cons, hc]
    | some ws =>
      have hguard : List.lookup c acc = none := hdisj c (List.mem_cons_self _ _)
      simp only [hc, hguard, Option.isSome_none, Bool.false_eq_true, if_false]
      have hdisj' : ∀ u ∈ cs, List.lookup u (acc ++ [(c, ws)]) = none := by
        intro u hu
        rw [List.lookup_append, hdisj u (List.mem_cons_of_mem _ hu)]
        have hbeq : (u == c) = false := by
          simp only [beq_eq_false_iff_ne]
          intro hEq
          exact hcnotin (hEq ▸ hu)
        rw [Option.none_or, List.lookup_cons, hbeq]
        rfl
      rw [ih (acc ++ [(c, ws)]) hnd' hdisj']
      simp [firstPart, List.filterMap_cons, hc, List.append_assoc]

lemma secondFold_eq :
    ∀ (m acc : List (String × List Word)),
      (m.map Prod.fst).Nodup →
      m.foldl (fun acc kv =>
          if (List.lookup kv.1 acc).isSome then acc else acc ++ [kv]) acc
        = acc ++ m.filter (fun kv => (List.lookup kv.1 acc).isNone) := by
  intro m
  induction m with
  | nil =>
    intro acc _
    simp
  | cons kv rest ih =>
    intro acc hnd
    have hkey : kv.1 ∉ rest.map Prod.fst := by
      rw [List.map_cons, List.nodup_cons] at hnd
      exact hnd.1
    have hnd' : (rest.map Prod.fst).Nodup := by
      rw [List.map_cons, List.nodup_cons] at hnd
      exact hnd.2
    rw [List.foldl_cons, List.filter_cons]
    cases hg : List.lookup kv.1 acc with
    | some v =>
      simp only [hg, Option.isSome_some, if_true, Option.isNone_some,
        Bool.false_eq_true, if_false]
      exact ih acc hnd'
    | none =>
      simp only [hg, Option.isSome_none, Bool.false_eq_true, if_false,
        Option.isNone_none, if_true]
      rw [ih (acc ++ [kv]) hnd']
      have hfc : rest.filter (fun kv2 => (List.lookup kv2.1 (acc ++ [kv])).isNone)
          = rest.filter (fun kv2 => (List.lookup kv2.1 acc).isNone) := by
        refine List.filter_congr ?_
        intro kv2 hkv2
        have hbeq : (kv2.1 == kv.1) = false := by
          simp only [beq_eq_false_iff_ne]
          intro hEq
          exact hkey (hEq ▸ List.mem_map_of_mem Prod.fst hkv2)
        have : List.lookup kv2.1 (acc ++ [kv]) = List.lookup kv2.1 acc := by
          rw [List.lookup_append]
          have hsingle : List.lookup kv2.1 [kv] = none := by
            obtain ⟨a, b⟩ := kv
            rw [List.lookup_cons]
            rw [show ((kv2.1 == a) = false) from hbeq]
            rfl
          rw [hsingle, Option.or_none]
        rw [this]
      rw [hfc, List.append_assoc]
      rfl

/-- C9: the reordering draw applies to each period before invoking the
engine is a pure permutation of the words mapping: every key keeps its
word list, no binding is added or dropped, and the keys are the global
category order entries that are present, in that order, followed by the
remaining keys in original insertion order. -/
theorem reorder_pure_permutation (order : List String) (m : List (String × List Word))
    (hm : (m.map Prod.fst).Nodup) (ho : order.Nodup) :
    (∀ k : String, List.lookup k (reorderWords order m) = List.lookup k m)
    ∧ (reorderWords order m).map Prod.fst
        = order.filter (fun c => (List.lookup c m).isSome)
          ++ (m.map Prod.fst).filter (fun k => !(order.contains k)) := by
  have hreo : reorderWords order m
      = firstPart order m
        ++ m.filter (fun kv => (List.lookup kv.1 (firstPart order m)).isNone) := by
    unfold reorderWords
    have h1 : order.foldl (fun acc c =>
        match List.lookup c m with
        | some ws => if (List.lookup c acc).isSome then acc else acc ++ [(c, ws)]
        | none => acc) [] = firstPart order m := by
      rw [firstFold_eq m order [] ho (fun c _ => rfl)]
      rfl
    rw [h1, secondFold_eq m (firstPart order m) hm]
  constructor
  · intro k
    rw [hreo, List.lookup_append,
      lookup_filter_key (fun s => (List.lookup s (firstPart order m)).isNone) m k,
      lookup_firstPart order m k]
    by_cases hmem : k ∈ order
    · simp only [hmem, if_true]
      cases hkm : List.lookup k m with
      | some ws => simp
      | none => simp [lookup_firstPart, hmem, hkm]
    · simp [lookup_firstPart, hmem]
  · rw [hreo, List.map_append,
      map_fst_filter_key (fun s => (List.lookup s (firstPart order m)).isNone) m,
      keys_firstPart]
    congr 1
    refine List.filter_congr ?_
    intro s hs
    rw [lookup_firstPart]
    by_cases hmem : s ∈ order
    · have hsome : (List.lookup s m).isSome := lookup_isSome_of_mem_keys m s hs
      cases hlk : List.lookup s m with
      | none => rw [hlk] at hsome; cases hsome
      | some ws => simp [hmem, hlk]
    · simp [hmem]

/-- C9 witness: the theorem applied to a concrete mapping and order,
with the key ordering conclusion instantiated. -/
theorem reorder_pure_permutation_witness :
    (([("A", ([] : List Word)), ("C", []), ("B", [])].map Prod.fst).Nodup)
    ∧ (["B", "A"] : List String).Nodup
    ∧ (reorderWords ["B", "A"] [("A", []), ("C", []), ("B", [])]).map Prod.fst
        = (["B", "A"] : List String).filter
            (fun c => (List.lookup c [("A", ([] : List Word)), ("C", []), ("B", [])]).isSome)
          ++ ([("A", ([] : List Word)), ("C", []), ("B", [])].map Prod.fst).filter
            (fun k => !((["B", "A"] : List String).contains k)) :=
  ⟨by decide, by decide,
    (reorder_pure_permutation ["B", "A"] [("A", []), ("C", []), ("B", [])]
      (by decide) (by decide)).2⟩

end WordStream
